import Mathlib

/-!
Verification of the chunk-assembly pipeline and speaker-metadata cache of the
`priv-modal-vocals` repository (coqui_service/utils: chunker.py, audio.py,
speaker_cache.py), as a shallow embedding in Lean 4.

Modelling conventions:
* Python strings are `List Char`; Python bytes are `List Nat` (each < 256).
* Python float arithmetic is modelled by exact rational arithmetic (`ℚ`);
  `int(x)` on a float is truncation toward zero (`truncQ`).
* Fallible Python code (exceptions) is modelled with `Option` / `Except`.
* `datetime` timestamps are modelled as integer seconds since the epoch.
-/

set_option autoImplicit false
set_option maxRecDepth 4000

namespace PMV

/-! ## Chunker embedding — src/coqui_service/utils/chunker.py -/

/-- Whitespace test used by `str.strip`, `str.split` and `\s` in the model
(Lean's `Char.isWhitespace`: space, tab, CR, LF). -/
def isWs (c : Char) : Bool :=
  c.isWhitespace

/-- Sentence-ending punctuation of the regex class `[.!?]`. -/
def isSentEnd (c : Char) : Bool :=
  c = '.' || c = '!' || c = '?'

/-- Core of `str.split()` (split on whitespace runs): returns the word being
built at the front of the string together with the completed words after it. -/
def splitWsCore : List Char → List Char × List (List Char)
  | [] => ([], [])
  | c :: rest =>
    let p := splitWsCore rest
    if isWs c then ([], if p.1 = [] then p.2 else p.1 :: p.2)
    else (c :: p.1, p.2)

/-- Attach a pending word to a word list, dropping it when empty. -/
def wsPush (w : List Char) (gs : List (List Char)) : List (List Char) :=
  if w = [] then gs else w :: gs

/-- Python `s.split()`: maximal whitespace-free runs of `s`, in order. -/
def splitWs (s : List Char) : List (List Char) :=
  wsPush (splitWsCore s).1 (splitWsCore s).2

/-- Remove the trailing whitespace run of a string. -/
def dropTrailingWs : List Char → List Char
  | [] => []
  | c :: rest =>
    match dropTrailingWs rest with
    | [] => if isWs c then [] else [c]
    | r => c :: r

/-- Python `s.strip()`: remove the leading and trailing whitespace runs. -/
def stripChars (s : List Char) : List Char :=
  dropTrailingWs (s.dropWhile isWs)

/-- Does the (reversed) accumulator end the part with `.`, `!` or `?` ? -/
def headIsSentEnd : List Char → Bool
  | [] => false
  | c :: _ => isSentEnd c

/-- Scanner for `re.split(r"(?<=[.!?])\s+", s)`.  `acc` is the current part,
reversed; the `Bool` is true while consuming the whitespace run of a match
(in that mode `acc` is `[]`).  A match ending at the end of the string yields
a final empty part, exactly as `re.split` does. -/
def sentGo : List Char → Bool → List Char → List (List Char)
  | [], _, acc => [acc.reverse]
  | c :: rest, true, acc =>
    if isWs c then sentGo rest true acc else sentGo rest false (c :: acc)
  | c :: rest, false, acc =>
    if isWs c && headIsSentEnd acc then acc.reverse :: sentGo rest true []
    else sentGo rest false (c :: acc)

/-- `split_sentences` (chunker.py:11-14): split the stripped text on
whitespace runs that follow `.`/`!`/`?`, strip each part, keep the
non-empty ones. -/
def splitSentences (text : List Char) : List (List Char) :=
  ((sentGo (stripChars text) false []).map stripChars).filter (fun p => !p.isEmpty)

/-- Python `" ".join(parts)`. -/
def joinSpace : List (List Char) → List Char
  | [] => []
  | [x] => x
  | x :: xs => x ++ ' ' :: joinSpace xs

/-- Mutable locals of `chunk_text`'s accumulation loop
(`chunks`, `current`, `current_chars`, `current_words`). -/
structure ChunkState where
  chunks : List (List Char)
  current : List (List Char)
  currentChars : Nat
  currentWords : Nat
deriving DecidableEq

/-- `flush_current` (chunker.py:51-60): join the buffer with spaces, strip,
append when non-empty, and reset the buffer and its counters. -/
def flushCurrent (st : ChunkState) : ChunkState :=
  if st.current = [] then ⟨st.chunks, [], 0, 0⟩
  else
    let chunk := stripChars (joinSpace st.current)
    if chunk = [] then ⟨st.chunks, [], 0, 0⟩
    else ⟨st.chunks ++ [chunk], [], 0, 0⟩

/-- One iteration of the word-wise loop (chunker.py:69-75). -/
def processWord (maxChars maxWords : Nat) (st : ChunkState) (w : List Char) :
    ChunkState :=
  let st1 :=
    if maxWords < st.currentWords + 1 || maxChars < st.currentChars + w.length + 1
    then flushCurrent st else st
  ⟨st1.chunks, st1.current ++ [w], st1.currentChars + (w.length + 1),
    st1.currentWords + 1⟩

/-- One iteration of the sentence loop (chunker.py:62-85): a sentence with
more than `maxWords` words is fed word-by-word; otherwise the whole sentence
is appended, flushing first when a cap would be exceeded. -/
def processSentence (maxChars maxWords : Nat) (st : ChunkState) (s : List Char) :
    ChunkState :=
  let ws := splitWs s
  if maxWords < ws.length then
    ws.foldl (processWord maxChars maxWords) st
  else
    let st1 :=
      if maxWords < st.currentWords + ws.length
          || maxChars < st.currentChars + s.length + 1
      then flushCurrent st else st
    ⟨st1.chunks, st1.current ++ [s], st1.currentChars + (s.length + 1),
      st1.currentWords + ws.length⟩

/-- Post-pass of `chunk_text` (chunker.py:90-92): merge a final chunk shorter
than `minChars` into the penultimate one (joined by a space, stripped). -/
def mergeTiny (minChars : Nat) (cs : List (List Char)) : List (List Char) :=
  match cs.reverse with
  | last :: prev :: restRev =>
    if last.length < minChars then
      restRev.reverse ++ [stripChars (prev ++ ' ' :: last)]
    else cs
  | _ => cs

/-- `chunk_text` (chunker.py:17-94). -/
def chunkText (text : List Char) (maxChars maxWords minChars : Nat)
    (preserve : Bool) : List (List Char) :=
  let cleaned := stripChars text
  if cleaned = [] then []
  else
    let sentences := if preserve then splitSentences cleaned else [cleaned]
    let st := sentences.foldl (processSentence maxChars maxWords) ⟨[], [], 0, 0⟩
    mergeTiny minChars (flushCurrent st).chunks

/-- Characters of a Lean string literal, used for concrete test inputs. -/
def strL (s : String) : List Char :=
  s.data

/-- The string has no whitespace character (a single unsplittable word). -/
def noWsStr (s : List Char) : Prop :=
  ∀ c ∈ s, isWs c = false

/-- A chunk admitted by the (amended) size claim: within the character cap,
or a single whitespace-free word, or a whole unit kept together because its
word count is within the word cap. -/
def chunkBound (maxChars maxWords : Nat) (c : List Char) : Prop :=
  c.length ≤ maxChars ∨ noWsStr c ∨ (splitWs c).length ≤ maxWords

/-- Words of a list of strings, concatenated in order. -/
def wordsJoin (l : List (List Char)) : List (List Char) :=
  (l.map splitWs).flatten

/-- `Σ (len e + 1)` over a list of strings — the quantity tracked by
`current_chars`. -/
def sumLen1 (l : List (List Char)) : Nat :=
  (l.map (fun e => e.length + 1)).sum

/-- An element the accumulation buffer may hold on its own while oversized:
a whitespace-free word, or a unit whose word count is within the word cap. -/
def elemOK (maxWords : Nat) (e : List Char) : Prop :=
  (∀ c ∈ e, isWs c = false) ∨ (splitWs e).length ≤ maxWords

/-- Invariant of `chunk_text`'s accumulation loop: `current_chars` tracks
`Σ (len + 1)` over the buffer; the buffer is empty, within the character cap,
or a single admissible oversized element; and every emitted chunk satisfies
the size claim and contains a non-whitespace character. -/
def stInv (maxChars maxWords : Nat) (st : ChunkState) : Prop :=
  st.currentChars = sumLen1 st.current
  ∧ (st.current = [] ∨ st.currentChars ≤ maxChars
      ∨ ∃ e, st.current = [e] ∧ elemOK maxWords e)
  ∧ ∀ c ∈ st.chunks, chunkBound maxChars maxWords c ∧ ∃ ch ∈ c, isWs ch = false

/-- All words held by a loop state, in order: words of the emitted chunks
followed by words of the accumulation buffer. -/
def stWords (st : ChunkState) : List (List Char) :=
  wordsJoin st.chunks ++ wordsJoin st.current

/-! ## PCM audio embedding — src/coqui_service/utils/audio.py

Byte strings are `List Nat`; 16-bit signed samples are `Int`. -/

/-- Clamp to the signed 16-bit range, as in
`max(-32768, min(32767, v))` (audio.py:93, 163). -/
def clamp16 (v : Int) : Int :=
  max (-32768) (min 32767 v)

/-- Interpret a 16-bit unsigned value as a signed (two's complement) one. -/
def toSigned (v : Nat) : Int :=
  if v < 32768 then (v : Int) else (v : Int) - 65536

/-- `array("h").frombytes`: little-endian 16-bit signed decode; a byte string
of odd length raises `ValueError`, modelled as `none`. -/
def bytesToSamples : List Nat → Option (List Int)
  | [] => some []
  | [_] => none
  | lo :: hi :: rest => (bytesToSamples rest).map (fun l => toSigned (lo + 256 * hi) :: l)

/-- Little-endian 16-bit encode of one in-range sample. -/
def sampleToBytes (s : Int) : List Nat :=
  let u := (s % 65536).toNat
  [u % 256, u / 256]

/-- `array("h").tobytes`. -/
def samplesToBytes (l : List Int) : List Nat :=
  (l.map sampleToBytes).flatten

/-- Python `int(x)` on a float: truncation toward zero, modelled on `ℚ`. -/
def truncQ (q : ℚ) : Int :=
  if q < 0 then -⌊-q⌋ else ⌊q⌋

/-- One crossfaded sample (audio.py:86-94): linear gains
`(fade-idx)/fade` and `idx/fade`, truncated to int and clamped. -/
def mixSample (fade : Nat) (l r : Int) (idx : Nat) : Int :=
  clamp16 (truncQ ((l : ℚ) * (((fade : ℚ) - (idx : ℚ)) / (fade : ℚ))
    + (r : ℚ) * ((idx : ℚ) / (fade : ℚ))))

/-- The crossfade region: index `idx` mixes `left[-fade+idx]` (that is,
`ls[ls.length - fade + idx]`) with `right[idx]`. -/
def mixRegion (ls rs : List Int) (fade : Nat) : List Int :=
  (List.range fade).map
    (fun idx => mixSample fade (ls.getD (ls.length - fade + idx) 0) (rs.getD idx 0) idx)

/-- `crossfade_pcm16` (audio.py:58-97): non-positive fade concatenates; the
fade is clamped to both sample counts; a zero clamped fade concatenates;
otherwise the tail of `left` and the head of `right` are blended. -/
def crossfade_pcm16 (left right : List Nat) (fadeSamples : Int) : Option (List Nat) :=
  if fadeSamples ≤ 0 then some (left ++ right)
  else
    match bytesToSamples left, bytesToSamples right with
    | some ls, some rs =>
      let fade := min fadeSamples.toNat (min ls.length rs.length)
      if fade = 0 then some (left ++ right)
      else some (samplesToBytes
        (ls.take (ls.length - fade) ++ mixRegion ls rs fade ++ rs.drop fade))
    | _, _ => none

/-- `generate_silence` (audio.py:100-122): `int(rate * ms / 1000)` frames of
zero bytes (`frames * channels * width` bytes). -/
def generate_silence (durationMs rate width channels : Nat) : List Nat :=
  if durationMs = 0 then []
  else List.replicate (rate * durationMs / 1000 * channels * width) 0

/-- The pairwise loop of `stitch_audio_chunks` (audio.py:46-53): `cf` is the
constant condition `crossfade_ms > 0 and sample_width == 2`. -/
def stitchLoop (cf : Bool) (fadeSamples : Nat) (silence : List Nat) :
    List Nat → List (List Nat) → Option (List Nat)
  | combined, [] => some combined
  | combined, chunk :: rest =>
    if cf then
      match crossfade_pcm16 combined chunk (fadeSamples : Int) with
      | some x => stitchLoop cf fadeSamples silence (x ++ silence) rest
      | none => none
    else stitchLoop cf fadeSamples silence (combined ++ silence ++ chunk) rest

/-- `stitch_audio_chunks` (audio.py:16-55). -/
def stitch_audio_chunks (chunks : List (List Nat))
    (rate width channels crossfadeMs silenceMs : Nat) : Option (List Nat) :=
  match chunks with
  | [] => some []
  | [c] => some c
  | c :: d :: rest =>
    let silence := generate_silence silenceMs rate width channels
    stitchLoop (decide (0 < crossfadeMs) && decide (width = 2))
      (rate * crossfadeMs / 1000 * channels) silence c (d :: rest)

/-- `max(abs(sample) for sample in samples)` (audio.py:152), as a `Nat`
(0 on the empty list, on which Python's `max` would raise instead). -/
def maxAbs : List Int → Nat
  | [] => 0
  | s :: rest => max s.natAbs (maxAbs rest)

/-- `normalize_audio` (audio.py:125-165): peak-normalize 16-bit PCM toward
`targetPeak * 32767`; pass through empty input, non-16-bit input and silence. -/
def normalize_audio (audio : List Nat) (width channels : Nat) (targetPeak : ℚ) :
    Option (List Nat) :=
  if audio = [] || !(width = 2 : Bool) then some audio
  else
    match bytesToSamples audio with
    | none => none
    | some samples =>
      if samples = [] then some audio
      else
        let peak := maxAbs samples
        if peak = 0 then some audio
        else some (samplesToBytes (samples.map
          (fun s : Int => clamp16 (truncQ ((s : ℚ) * (targetPeak * 32767 / (peak : ℚ)))))))

/-! ## Reference-audio validation embedding — audio.py:222-427

`validate_audio_duration` and `validate_audio_quality` parse the byte string
with the `wave` module; the model starts from the parsed WAV header
(`none` when `wave.open` raises `wave.Error`).  Message strings are
modelled by tags. -/

/-- Error messages produced by the validators. -/
inductive ErrMsg
  | fileTooLarge
  | tooShort
  | tooLong
  | invalidWav
  | validationFailed
  | sampleRateTooLow
deriving DecidableEq

/-- Warning messages produced by the validators. -/
inductive Warn
  | durationNotOptimal
  | rateBelowPreferred
  | stereo
  | lowBitDepth
deriving DecidableEq

/-- Header data the `wave` module exposes for a parsed file. -/
structure WavParams where
  nframes : Nat
  framerate : Nat
  nchannels : Nat
  sampwidth : Nat
deriving DecidableEq

/-- An uploaded clip: its byte size and its parse result. -/
structure WavFile where
  size : Nat
  parsed : Option WavParams
deriving DecidableEq

/-- `AudioValidationResult` (audio.py:222-231); `warning_message` is the list
of warnings that the code joins with `"; "`. -/
structure AudioValidationResult where
  is_valid : Bool
  duration : Option ℚ
  sample_rate : Option Nat
  channels : Option Nat
  error_message : Option ErrMsg
  warning_message : Option (List Warn)
deriving DecidableEq

/-- `validate_audio_duration` (audio.py:234-309).  A zero frame rate would
raise `ZeroDivisionError`, caught by the outer `except Exception`. -/
def validate_audio_duration (w : WavFile) (minD maxD optMin optMax : ℚ) :
    AudioValidationResult :=
  match w.parsed with
  | none => ⟨false, none, none, none, some .invalidWav, none⟩
  | some p =>
    if p.framerate = 0 then ⟨false, none, none, none, some .validationFailed, none⟩
    else
      let duration : ℚ := (p.nframes : ℚ) / (p.framerate : ℚ)
      if duration < minD then
        ⟨false, some duration, some p.framerate, some p.nchannels, some .tooShort, none⟩
      else if maxD < duration then
        ⟨false, some duration, some p.framerate, some p.nchannels, some .tooLong, none⟩
      else
        ⟨true, some duration, some p.framerate, some p.nchannels, none,
          if duration < optMin || optMax < duration
          then some [Warn.durationNotOptimal] else none⟩

/-- `validate_audio_quality` (audio.py:312-377). -/
def validate_audio_quality (w : WavFile) (minRate prefRate : Nat) :
    AudioValidationResult :=
  match w.parsed with
  | none => ⟨false, none, none, none, some .invalidWav, none⟩
  | some p =>
    if p.framerate < minRate then
      ⟨false, none, some p.framerate, some p.nchannels, some .sampleRateTooLow, none⟩
    else
      let warnings :=
        (if p.framerate < prefRate then [Warn.rateBelowPreferred] else [])
          ++ (if 1 < p.nchannels then [Warn.stereo] else [])
          ++ (if p.sampwidth < 2 then [Warn.lowBitDepth] else [])
      ⟨true, none, some p.framerate, some p.nchannels, none,
        if warnings = [] then none else some warnings⟩

/-- `validate_reference_audio` (audio.py:380-426): size cap, then duration,
then quality, short-circuiting on the first invalid result; warnings of the
two passing checks are concatenated. -/
def validate_reference_audio (w : WavFile) (maxSizeMb : ℚ) :
    AudioValidationResult :=
  let sizeMb : ℚ := (w.size : ℚ) / (1024 * 1024)
  if maxSizeMb < sizeMb then ⟨false, none, none, none, some .fileTooLarge, none⟩
  else
    let d := validate_audio_duration w 3 30 6 10
    if !d.is_valid then d
    else
      let q := validate_audio_quality w 16000 22050
      if !q.is_valid then q
      else
        let warnings := d.warning_message.getD [] ++ q.warning_message.getD []
        ⟨true, d.duration, q.sample_rate, q.channels, none,
          if warnings = [] then none else some warnings⟩

/-! ## Speaker cache embedding — src/coqui_service/utils/speaker_cache.py

The persisted JSON file is modelled as a `FileState`; `last_updated`
timestamps are integer seconds since the epoch. -/

/-- Python exceptions that escape `get_speakers` in the model. -/
inductive PyErr
  | keyError
deriving DecidableEq

/-- The persisted JSON object, with each key optional (a missing key makes
the corresponding `cache_data[...]` access raise `KeyError`). -/
structure RawRecord where
  speakers : Option (List String)
  count : Option Int
  last_updated : Option Int
deriving DecidableEq

/-- State of the cache file on the volume: missing, unreadable/corrupt JSON,
or a parsed record. -/
inductive FileState
  | absent
  | corrupt
  | record (r : RawRecord)
deriving DecidableEq

/-- `SpeakerCache.ttl_days` (speaker_cache.py:23). -/
def ttl_days : Int := 10

/-- `get_cache_metadata` (speaker_cache.py:26-49): `None` for a missing file,
a JSON decode / IO error, or a record without the `"speakers"` key. -/
def get_cache_metadata : FileState → Option RawRecord
  | .absent => none
  | .corrupt => none
  | .record r => if r.speakers = none then none else some r

/-- `is_cache_stale` (speaker_cache.py:51-79): missing `last_updated` is
stale; otherwise stale iff the age exceeds the 10-day TTL. -/
def is_cache_stale (now : Int) (r : RawRecord) : Bool :=
  match r.last_updated with
  | none => true
  | some t => decide (ttl_days * 86400 < now - t)

/-- `write_cache` (speaker_cache.py:81-113): persist the sorted name list,
the count of the *input* list, and the current timestamp.  Python's `sorted`
is stable, identical to `List.insertionSort` on the lexicographic order. -/
def write_cache (speakers : List String) (now : Int) : FileState :=
  .record ⟨some (List.insertionSort (fun a b => a ≤ b) speakers),
    some (speakers.length : Int), some now⟩

/-- The value `get_speakers` / `_refresh_cache` return to the caller. -/
structure SpeakersResult where
  speakers : List String
  count : Int
  last_updated : Int
  cache_age_days : Int
deriving DecidableEq

/-- `_refresh_cache` (speaker_cache.py:163-194): `discovered` is what
`_discover_speakers` returned; an empty discovery returns a zero-count
record and leaves the file untouched, otherwise the cache is rewritten. -/
def refresh_cache (discovered : List String) (now : Int) (fs : FileState) :
    SpeakersResult × FileState :=
  if discovered = [] then (⟨[], 0, now, 0⟩, fs)
  else (⟨discovered, (discovered.length : Int), now, 0⟩, write_cache discovered now)

/-- `get_speakers` (speaker_cache.py:115-161).  The returned `Bool` records
whether a background refresh was scheduled (`asyncio.create_task`); the new
`FileState` is the persisted state after the synchronous work.  Reading a
missing key of the parsed record raises `KeyError`
(`cache_data["last_updated"]` at line 153, then `"speakers"`/`"count"`). -/
def get_speakers (forceRefresh : Bool) (discovered : List String) (now : Int)
    (fs : FileState) : Except PyErr (SpeakersResult × FileState × Bool) :=
  if forceRefresh then
    let p := refresh_cache discovered now fs
    .ok (p.1, p.2, false)
  else
    match get_cache_metadata fs with
    | none =>
      let p := refresh_cache discovered now fs
      .ok (p.1, p.2, false)
    | some data =>
      let stale := is_cache_stale now data
      match data.last_updated with
      | none => .error .keyError
      | some t =>
        match data.speakers, data.count with
        | some sp, some cnt => .ok (⟨sp, cnt, t, (now - t).ediv 86400⟩, fs, stale)
        | _, _ => .error .keyError

/-! ## Claims about the reference-audio validator -/

/-- A 3MB stereo 8 kHz 16-bit clip whose header reports an 8-second duration
(within all size and duration limits). -/
def clip8k : WavFile :=
  ⟨3 * 1024 * 1024, some ⟨64000, 8000, 2, 2⟩⟩

/-- The same clip with a 16 kHz sample rate. -/
def clip16k : WavFile :=
  ⟨3 * 1024 * 1024, some ⟨128000, 16000, 2, 2⟩⟩

/-- C2, counterexample: on a 3MB stereo 8 kHz clip within the size and
duration limits, `validate_reference_audio` does *not* return a valid result
with warnings — the 8000 Hz rate is below the 16000 Hz minimum of
`validate_audio_quality`, so the clip is rejected with a sample-rate error. -/
theorem validate_reference_audio_8k_rejected :
    validate_reference_audio clip8k 10
      = ⟨false, none, some 8000, some 2, some .sampleRateTooLow, none⟩
    ∧ (validate_reference_audio clip8k 10).is_valid = false := by
  constructor
  · norm_num [validate_reference_audio, validate_audio_duration,
      validate_audio_quality, clip8k]
  · norm_num [validate_reference_audio, validate_audio_duration,
      validate_audio_quality, clip8k]

/-- C2, amended: the 8 kHz clip is rejected with a sample-rate-too-low error,
while the analogous 16 kHz stereo clip passes with exactly the channel-count
warning and the below-preferred sample-rate warning. -/
theorem validate_reference_audio_amended :
    (validate_reference_audio clip8k 10).is_valid = false
    ∧ (validate_reference_audio clip8k 10).error_message = some .sampleRateTooLow
    ∧ validate_reference_audio clip16k 10
      = ⟨true, some 8, some 16000, some 2, none, some [.rateBelowPreferred, .stereo]⟩ := by
  refine ⟨?_, ?_, ?_⟩
  · norm_num [validate_reference_audio, validate_audio_duration,
      validate_audio_quality, clip8k]
  · norm_num [validate_reference_audio, validate_audio_duration,
      validate_audio_quality, clip8k]
  · norm_num [validate_reference_audio, validate_audio_duration,
      validate_audio_quality, clip16k]
    decide

/-! ## Claims about the speaker cache -/

/-- C3: a persisted record that has a `"speakers"` key but no
`"last_updated"` key passes `get_cache_metadata`'s structural validation, so
`get_speakers` (without `force_refresh`) does not rebuild; it reaches
`cache_data["last_updated"]` (speaker_cache.py:153) and propagates a
`KeyError` to the caller instead of performing a synchronous refresh. -/
theorem get_speakers_missing_last_updated_raises :
    get_speakers false ["alice"] 1000000
      (.record ⟨some ["bob"], some 1, none⟩) = .error .keyError := rfl

/-- C7: when discovery returns the empty name set, `_refresh_cache` returns a
zero-count record with an empty name list and leaves the persisted file state
untouched (it never calls `write_cache`). -/
theorem refresh_cache_empty_discovery (now : Int) (fs : FileState) :
    refresh_cache [] now fs = (⟨[], 0, now, 0⟩, fs) := by
  simp [refresh_cache]

/-- C8, counterexample: `write_cache` sorts but does not deduplicate — the
input `["a", "a"]` is persisted with a duplicate name. -/
theorem write_cache_keeps_duplicates :
    write_cache ["a", "a"] 0 = .record ⟨some ["a", "a"], some 2, some 0⟩
    ∧ ¬ (["a", "a"] : List String).Nodup := by
  with_unfolding_all decide

/-- C8, amended: every record persisted by `write_cache` stores the sorted
input list and a count equal to the input length (hence equal to the stored
list's length); the stored list is duplicate-free whenever the discovery
input is, but duplicates in the input are preserved. -/
theorem write_cache_invariants (speakers : List String) (now : Int) :
    write_cache speakers now
      = .record ⟨some (List.insertionSort (fun a b => a ≤ b) speakers),
          some (speakers.length : Int), some now⟩
    ∧ List.Sorted (fun a b => a ≤ b) (List.insertionSort (fun a b => a ≤ b) speakers)
    ∧ (List.insertionSort (fun a b => a ≤ b) speakers).length = speakers.length
    ∧ (speakers.Nodup → (List.insertionSort (fun a b => a ≤ b) speakers).Nodup) := by
  refine ⟨rfl, List.sorted_insertionSort _ _, (List.perm_insertionSort _ _).length_eq, ?_⟩
  exact fun h => (List.perm_insertionSort _ _).nodup_iff.mpr h

/-- Witness for C8's amended theorem at the concrete input `["b", "a"]`. -/
theorem write_cache_invariants_witness :
    (["b", "a"] : List String).Nodup
    ∧ (List.insertionSort (fun a b => a ≤ b) (["b", "a"] : List String)).Nodup :=
  ⟨by with_unfolding_all decide,
    (write_cache_invariants ["b", "a"] 5).2.2.2 (by with_unfolding_all decide)⟩

/-! ## Byte/sample helper lemmas -/

theorem bytesToSamples_length : ∀ {bs : List Nat} {ls : List Int},
    bytesToSamples bs = some ls → bs.length = 2 * ls.length := by
  intro bs
  induction bs using bytesToSamples.induct with
  | case1 => intro ls h; simp_all [bytesToSamples]
  | case2 b => intro ls h; simp [bytesToSamples] at h
  | case3 lo hi rest ih =>
    intro ls h
    simp only [bytesToSamples, Option.map_eq_some'] at h
    obtain ⟨l2, h2, rfl⟩ := h
    simp only [List.length_cons, ih h2]
    ring

theorem bytesToSamples_total : ∀ {bs : List Nat}, 2 ∣ bs.length →
    ∃ ls, bytesToSamples bs = some ls := by
  intro bs
  induction bs using bytesToSamples.induct with
  | case1 => exact fun _ => ⟨[], rfl⟩
  | case2 b => intro h; simp at h
  | case3 lo hi rest ih =>
    intro h
    have hr : 2 ∣ rest.length := by simp at h; omega
    obtain ⟨ls, hls⟩ := ih hr
    exact ⟨toSigned (lo + 256 * hi) :: ls, by simp [bytesToSamples, hls]⟩

theorem samplesToBytes_length (l : List Int) :
    (samplesToBytes l).length = 2 * l.length := by
  induction l with
  | nil => simp [samplesToBytes]
  | cons s rest ih =>
    simp [samplesToBytes, sampleToBytes] at ih ⊢
    omega

theorem decode_encode (s : Int) (h1 : -32768 ≤ s) (h2 : s ≤ 32767) :
    toSigned ((s % 65536).toNat % 256 + 256 * ((s % 65536).toNat / 256)) = s := by
  have hu : ((s % 65536).toNat : Int) = s % 65536 := by
    have := Int.emod_nonneg s (by norm_num : (65536 : Int) ≠ 0)
    omega
  rw [Nat.mod_add_div]
  unfold toSigned
  split <;> omega

theorem samples_roundtrip : ∀ (l : List Int),
    (∀ s ∈ l, -32768 ≤ s ∧ s ≤ 32767) →
    bytesToSamples (samplesToBytes l) = some l := by
  intro l hl
  induction l with
  | nil => rfl
  | cons s rest ih =>
    have hs := hl s (by simp)
    have hrest := ih (fun x hx => hl x (by simp [hx]))
    simp only [samplesToBytes, List.map_cons, List.flatten_cons, sampleToBytes,
      List.cons_append, List.nil_append]
    simp only [samplesToBytes] at hrest
    simp only [bytesToSamples, hrest]
    simp [decode_encode s hs.1 hs.2]

theorem clamp16_le (v : Int) : -32768 ≤ clamp16 v ∧ clamp16 v ≤ 32767 := by
  simp only [clamp16]
  omega

theorem clamp16_eq_self {v : Int} (h1 : -32768 ≤ v) (h2 : v ≤ 32767) :
    clamp16 v = v := by
  simp only [clamp16]
  omega

/-- Shared length/degeneracy fact about `crossfade_pcm16` with a positive
fade request: the fade is clamped to both sample counts, the output is
shorter than the concatenation by the clamped window, and the plain
concatenation appears exactly when the clamped window is zero. -/
theorem crossfade_pcm16_len {left right : List Nat} {ls rs : List Int}
    {fade : Int} (hl : bytesToSamples left = some ls)
    (hr : bytesToSamples right = some rs) (hpos : 0 < fade) :
    ∃ out, crossfade_pcm16 left right fade = some out
      ∧ out.length + 2 * min fade.toNat (min ls.length rs.length)
        = left.length + right.length
      ∧ (min fade.toNat (min ls.length rs.length) = 0 → out = left ++ right) := by
  have hl2 := bytesToSamples_length hl
  have hr2 := bytesToSamples_length hr
  have hnle : ¬ (fade ≤ 0) := by omega
  by_cases h0 : min fade.toNat (min ls.length rs.length) = 0
  · refine ⟨left ++ right, ?_, ?_, fun _ => rfl⟩
    · simp [crossfade_pcm16, hnle, hl, hr, h0]
    · simp [h0, hl2, hr2]
  · refine ⟨samplesToBytes
        (ls.take (ls.length - min fade.toNat (min ls.length rs.length))
          ++ mixRegion ls rs (min fade.toNat (min ls.length rs.length))
          ++ rs.drop (min fade.toNat (min ls.length rs.length))), ?_, ?_,
        fun h => absurd h h0⟩
    · simp [crossfade_pcm16, hnle, hl, hr, h0]
    · rw [samplesToBytes_length]
      simp only [List.length_append, List.length_take, List.length_drop,
        mixRegion, List.length_map, List.length_range]
      omega

/-- With crossfading enabled (positive `crossfade_ms`, 16-bit width) and no
inter-chunk silence, stitching two chunks is exactly one crossfade. -/
theorem stitch_two (a b : List Nat) (rate channels cfMs : Nat) (hcf : 0 < cfMs) :
    stitch_audio_chunks [a, b] rate 2 channels cfMs 0
      = crossfade_pcm16 a b ((rate * cfMs / 1000 * channels : Nat) : Int) := by
  simp only [stitch_audio_chunks, generate_silence]
  rw [show (decide (0 < cfMs) && decide True) = true from by simp [hcf]]
  rw [if_pos trivial]
  cases hc : crossfade_pcm16 a b ((rate * cfMs / 1000 * channels : Nat) : Int) with
  | none => simp only [stitchLoop, if_true, hc]
  | some x => simp only [stitchLoop, if_true, hc, List.append_nil]

/-! ## Claims about the PCM stitcher -/

/-- C4: a single chunk is returned unchanged; zero chunks give the empty
buffer; with crossfade and silence disabled, stitching two chunks
concatenates them (so lengths add); and with crossfading enabled, when both
buffers hold at least `fade_samples` samples, the output length is
`len(a) + len(b) - fade_bytes` with `fade_bytes = 2 * fade_samples`. -/
theorem stitch_audio_chunks_lengths :
    (∀ (a : List Nat) (rate width channels cfMs silMs : Nat),
        stitch_audio_chunks [a] rate width channels cfMs silMs = some a)
    ∧ (∀ (rate width channels cfMs silMs : Nat),
        stitch_audio_chunks [] rate width channels cfMs silMs = some [])
    ∧ (∀ (a b : List Nat) (rate width channels : Nat),
        stitch_audio_chunks [a, b] rate width channels 0 0 = some (a ++ b)
          ∧ (a ++ b).length = a.length + b.length)
    ∧ (∀ (a b : List Nat) (ls rs : List Int) (rate channels cfMs : Nat),
        bytesToSamples a = some ls → bytesToSamples b = some rs →
        0 < cfMs →
        rate * cfMs / 1000 * channels ≤ ls.length →
        rate * cfMs / 1000 * channels ≤ rs.length →
        ∃ out, stitch_audio_chunks [a, b] rate 2 channels cfMs 0 = some out
          ∧ out.length + 2 * (rate * cfMs / 1000 * channels)
            = a.length + b.length) := by
  refine ⟨fun a _ _ _ _ _ => rfl, fun _ _ _ _ _ => rfl, ?_, ?_⟩
  · intro a b rate width channels
    exact ⟨by simp [stitch_audio_chunks, stitchLoop, generate_silence], by simp⟩
  · intro a b ls rs rate channels cfMs hla hlb hcf hfl hfr
    rw [stitch_two a b rate channels cfMs hcf]
    by_cases hf0 : rate * cfMs / 1000 * channels = 0
    · refine ⟨a ++ b, ?_, ?_⟩
      · simp [crossfade_pcm16, hf0]
      · simp [hf0, bytesToSamples_length hla, bytesToSamples_length hlb]
    · have hpos : (0 : Int) < ((rate * cfMs / 1000 * channels : Nat) : Int) := by
        exact_mod_cast Nat.pos_of_ne_zero hf0
      obtain ⟨out, hout, hlen, _⟩ := crossfade_pcm16_len hla hlb hpos
      refine ⟨out, hout, ?_⟩
      rw [Int.toNat_natCast] at hlen
      have hm : min (rate * cfMs / 1000 * channels) (min ls.length rs.length)
          = rate * cfMs / 1000 * channels := by omega
      rw [hm] at hlen
      exact hlen

/-- Witness for C4's crossfade-length conjunct: two 3-sample buffers, a
2-sample fade window (rate 1000 Hz, 2 ms), output of 8 bytes. -/
theorem stitch_audio_chunks_lengths_witness :
    bytesToSamples [1, 0, 2, 0, 3, 0] = some [1, 2, 3]
    ∧ (∃ out, stitch_audio_chunks [[1, 0, 2, 0, 3, 0], [4, 0, 5, 0, 6, 0]]
          1000 2 1 2 0 = some out
        ∧ out.length + 2 * (1000 * 2 / 1000 * 1) = 6 + 6) :=
  ⟨by decide,
    stitch_audio_chunks_lengths.2.2.2 [1, 0, 2, 0, 3, 0] [4, 0, 5, 0, 6, 0]
      [1, 2, 3] [4, 5, 6] 1000 1 2 (by decide) (by decide) (by decide)
      (by decide) (by decide)⟩

/-- C6, counterexample: with `right` shorter (2 samples) than the fade window
(5 samples), `crossfade_pcm16` does *not* degenerate to the concatenation of
the two buffers — it still crossfades over the clamped 1-sample window,
dropping a sample of `right`. -/
theorem crossfade_pcm16_short_not_concat :
    crossfade_pcm16 [100, 0] [7, 0, 8, 0] 5 = some [100, 0, 8, 0]
    ∧ [100, 0, 8, 0] ≠ [100, 0] ++ [7, 0, 8, 0] := by
  constructor
  · with_unfolding_all decide
  · decide

/-- C6, amended: a positive fade is clamped to the shorter of the two sample
counts and a crossfade over that clamped window is performed (the output is
shorter than the concatenation by exactly the clamped window); the degenerate
no-crossfade concatenation occurs exactly when the clamped window is zero,
i.e. when one buffer has no samples; no underflow occurs in any case. -/
theorem crossfade_pcm16_clamps (left right : List Nat) (ls rs : List Int)
    (fade : Int) (hl : bytesToSamples left = some ls)
    (hr : bytesToSamples right = some rs) (hpos : 0 < fade) :
    ∃ out, crossfade_pcm16 left right fade = some out
      ∧ out.length + 2 * min fade.toNat (min ls.length rs.length)
        = left.length + right.length
      ∧ (min fade.toNat (min ls.length rs.length) = 0 → out = left ++ right) :=
  crossfade_pcm16_len hl hr hpos

/-- Witness for C6's amended theorem at the counterexample's input. -/
theorem crossfade_pcm16_clamps_witness :
    bytesToSamples [100, 0] = some [100]
    ∧ (0 : Int) < 5
    ∧ (∃ out, crossfade_pcm16 [100, 0] [7, 0, 8, 0] 5 = some out
        ∧ out.length + 2 * min (Int.toNat 5) (min [(100 : Int)].length
            [(7 : Int), 8].length) = 2 + 4
        ∧ (min (Int.toNat 5) (min [(100 : Int)].length [(7 : Int), 8].length) = 0 →
            out = [100, 0] ++ [7, 0, 8, 0])) :=
  ⟨by decide, by decide,
    crossfade_pcm16_clamps [100, 0] [7, 0, 8, 0] [100] [7, 8] 5
      (by decide) (by decide) (by decide)⟩

/-! ## Claims about the normalizer -/

theorem maxAbs_le {l : List Int} {K : Nat} (h : ∀ s ∈ l, s.natAbs ≤ K) :
    maxAbs l ≤ K := by
  induction l with
  | nil => simp [maxAbs]
  | cons s rest ih =>
    simp only [maxAbs, max_le_iff]
    exact ⟨h s (by simp), ih fun x hx => h x (by simp [hx])⟩

theorem le_maxAbs {l : List Int} {s : Int} (h : s ∈ l) : s.natAbs ≤ maxAbs l := by
  induction l with
  | nil => simp at h
  | cons x rest ih =>
    rcases List.mem_cons.mp h with rfl | hm
    · simp [maxAbs]
    · simp only [maxAbs]
      exact le_trans (ih hm) (le_max_right _ _)

theorem maxAbs_exists : ∀ {l : List Int}, l ≠ [] →
    ∃ s ∈ l, s.natAbs = maxAbs l := by
  intro l
  induction l with
  | nil => simp
  | cons s rest ih =>
    intro _
    by_cases hr : rest = []
    · exact ⟨s, by simp, by simp [hr, maxAbs]⟩
    · obtain ⟨x, hx, hx2⟩ := ih hr
      rcases le_total (maxAbs rest) s.natAbs with hle | hle
      · exact ⟨s, by simp, by simp [maxAbs, Nat.max_eq_left hle]⟩
      · exact ⟨x, by simp [hx], by simp [maxAbs, Nat.max_eq_right hle, hx2]⟩

theorem truncQ_abs (q : ℚ) : ((truncQ q).natAbs : Int) = ⌊|q|⌋ := by
  by_cases h : q < 0
  · have h2 : (0 : Int) ≤ ⌊-q⌋ := Int.floor_nonneg.mpr (by linarith)
    simp [truncQ, h, abs_of_neg h, Int.natAbs_of_nonneg h2]
  · have h2 : (0 : Int) ≤ ⌊q⌋ := Int.floor_nonneg.mpr (by linarith)
    simp [truncQ, h, abs_of_nonneg (not_lt.mp h), Int.natAbs_of_nonneg h2]

/-- Shared core of the normalizer peak claim: on even-length, non-silent
16-bit input with `0 < targetPeak ≤ 1`, the output's samples have maximum
absolute value `⌊targetPeak * 32767⌋`, within 1 of `round(targetPeak * 32767)`. -/
theorem normalize_peak_core (audio : List Nat) (channels : Nat) (t : ℚ)
    (ls : List Int) (hls : bytesToSamples audio = some ls) (hne : ls ≠ [])
    (hpk : maxAbs ls ≠ 0) (ht0 : 0 < t) (ht1 : t ≤ 1) :
    ∃ out outS, normalize_audio audio 2 channels t = some out
      ∧ bytesToSamples out = some outS
      ∧ (maxAbs outS : Int) = ⌊t * 32767⌋
      ∧ ((maxAbs outS : Int) - round (t * 32767)).natAbs ≤ 1 := by
  have ha : audio ≠ [] := by
    intro h
    subst h
    simp only [bytesToSamples, Option.some_inj] at hls
    exact hne hls.symm
  set P : Nat := maxAbs ls with hP
  set c : ℚ := t * 32767 / (P : ℚ) with hc
  set f : Int → Int := fun s : Int => clamp16 (truncQ ((s : ℚ) * c)) with hf
  have hPpos : (0 : ℚ) < (P : ℚ) := by
    exact_mod_cast Nat.pos_of_ne_zero hpk
  have hc0 : 0 ≤ c := by
    apply div_nonneg _ (le_of_lt hPpos)
    positivity
  have hkey : (P : ℚ) * c = t * 32767 := by
    rw [hc]
    field_simp
  have hx0 : (0 : ℚ) ≤ t * 32767 := by positivity
  set K : Int := ⌊t * 32767⌋ with hK
  have hK0 : 0 ≤ K := Int.floor_nonneg.mpr hx0
  have hK32767 : K ≤ 32767 := by
    have : t * 32767 ≤ 32767 := by nlinarith
    calc K ≤ ⌊(32767 : ℚ)⌋ := Int.floor_le_floor this
    _ = 32767 := by norm_num
  have hbound : ∀ s ∈ ls, ((f s).natAbs : Int) ≤ K ∧ f s = truncQ ((s : ℚ) * c) := by
    intro s hs
    have habs : |(s : ℚ) * c| ≤ t * 32767 := by
      rw [abs_mul, abs_of_nonneg hc0]
      have h1 : |(s : ℚ)| ≤ (P : ℚ) := by
        have h2 : (s.natAbs : ℚ) ≤ (P : ℚ) := by exact_mod_cast le_maxAbs hs
        rwa [Int.cast_natAbs, Int.cast_abs] at h2
      calc |(s : ℚ)| * c ≤ (P : ℚ) * c := by
            exact mul_le_mul_of_nonneg_right h1 hc0
      _ = t * 32767 := hkey
    have htr : ((truncQ ((s : ℚ) * c)).natAbs : Int) ≤ K := by
      rw [truncQ_abs]
      exact Int.floor_le_floor habs
    have hcl : f s = truncQ ((s : ℚ) * c) := by
      rw [hf]
      apply clamp16_eq_self <;> omega
    exact ⟨by rw [hcl]; exact htr, hcl⟩
  have hattain : ∃ s ∈ ls, ((f s).natAbs : Int) = K := by
    obtain ⟨s0, hs0, hs0abs⟩ := maxAbs_exists hne
    refine ⟨s0, hs0, ?_⟩
    rw [(hbound s0 hs0).2, truncQ_abs]
    have : |(s0 : ℚ) * c| = t * 32767 := by
      rw [abs_mul, abs_of_nonneg hc0, ← hkey]
      congr 1
      rw [hP, ← hs0abs, Int.cast_natAbs, Int.cast_abs]
    rw [this]
  obtain ⟨s0, hs0, hs0K⟩ := hattain
  have hmax : (maxAbs (ls.map f) : Int) = K := by
    have hle : maxAbs (ls.map f) ≤ K.toNat := by
      apply maxAbs_le
      intro x hx
      obtain ⟨s, hs, rfl⟩ := List.mem_map.mp hx
      have := (hbound s hs).1
      omega
    have hge : K.toNat ≤ maxAbs (ls.map f) := by
      have : (f s0).natAbs ≤ maxAbs (ls.map f) :=
        le_maxAbs (List.mem_map.mpr ⟨s0, hs0, rfl⟩)
      omega
    omega
  refine ⟨samplesToBytes (ls.map f), ls.map f, ?_, ?_, ?_, ?_⟩
  · simp only [normalize_audio, ha, hls]
    simp [hne, hpk, ← hP, hf, hc]
  · apply samples_roundtrip
    intro x hx
    obtain ⟨s, hs, rfl⟩ := List.mem_map.mp hx
    rw [hf]
    exact clamp16_le _
  · exact hmax
  · rw [hmax]
    have hr1 : K ≤ round (t * 32767) := by
      rw [round_eq]
      exact Int.floor_le_floor (by linarith)
    have hr2 : round (t * 32767) ≤ K + 1 := by
      rw [round_eq]
      calc ⌊t * 32767 + 1 / 2⌋ ≤ ⌊t * 32767 + 1⌋ := Int.floor_le_floor (by linarith)
      _ = K + 1 := by rw [Int.floor_add_one]
    omega


/-- C10: `normalize_audio` never changes the byte length — on any input of
even byte length (and on every input it passes through unchanged) the output
has exactly the input's byte length, so the sample count and the audio
duration are preserved. -/
theorem normalize_audio_length (audio : List Nat) (width channels : Nat)
    (t : ℚ) (heven : 2 ∣ audio.length) :
    ∃ out, normalize_audio audio width channels t = some out
      ∧ out.length = audio.length := by
  by_cases hw : width = 2
  · by_cases ha : audio = []
    · exact ⟨audio, by simp [normalize_audio, ha], rfl⟩
    · obtain ⟨ls, hls⟩ := bytesToSamples_total heven
      subst hw
      by_cases hls0 : ls = []
      · exact ⟨audio, by simp [normalize_audio, ha, hls, hls0], rfl⟩
      · by_cases hpk : maxAbs ls = 0
        · exact ⟨audio, by simp [normalize_audio, ha, hls, hls0, hpk], rfl⟩
        · refine ⟨samplesToBytes (ls.map fun s : Int =>
              clamp16 (truncQ ((s : ℚ) * (t * 32767 / (maxAbs ls : ℚ))))), ?_, ?_⟩
          · simp [normalize_audio, ha, hls, hls0, hpk]
          · rw [samplesToBytes_length, List.length_map, ← bytesToSamples_length hls]
  · exact ⟨audio, by simp [normalize_audio, hw], rfl⟩

/-- Witness for C10 at a concrete 4-byte buffer. -/
theorem normalize_audio_length_witness :
    (2 ∣ ([1, 0, 64, 0] : List Nat).length)
    ∧ (∃ out, normalize_audio [1, 0, 64, 0] 2 1 (9/10) = some out
        ∧ out.length = ([1, 0, 64, 0] : List Nat).length) :=
  ⟨by decide, normalize_audio_length [1, 0, 64, 0] 2 1 (9/10) (by decide)⟩

/-- C5: for non-silent 16-bit input and `targetPeak ∈ (0, 1]`, normalization
makes the maximum absolute sample value equal to `round(targetPeak * 32767)`
within rounding tolerance (distance at most 1, being exactly
`⌊targetPeak * 32767⌋`); empty input, non-16-bit input and all-zero (silent)
input are returned unchanged. -/
theorem normalize_audio_peak :
    (∀ (audio : List Nat) (width channels : Nat) (t : ℚ), width ≠ 2 →
        normalize_audio audio width channels t = some audio)
    ∧ (∀ (width channels : Nat) (t : ℚ),
        normalize_audio [] width channels t = some [])
    ∧ (∀ (audio : List Nat) (channels : Nat) (t : ℚ) (ls : List Int),
        bytesToSamples audio = some ls → maxAbs ls = 0 →
        normalize_audio audio 2 channels t = some audio)
    ∧ (∀ (audio : List Nat) (channels : Nat) (t : ℚ) (ls : List Int),
        bytesToSamples audio = some ls → ls ≠ [] → maxAbs ls ≠ 0 →
        0 < t → t ≤ 1 →
        ∃ out outS, normalize_audio audio 2 channels t = some out
          ∧ bytesToSamples out = some outS
          ∧ (maxAbs outS : Int) = ⌊t * 32767⌋
          ∧ ((maxAbs outS : Int) - round (t * 32767)).natAbs ≤ 1) := by
  refine ⟨?_, ?_, ?_, ?_⟩
  · intro audio width channels t hw
    simp [normalize_audio, hw]
  · intro width channels t
    simp [normalize_audio]
  · intro audio channels t ls hls h0
    by_cases ha : audio = []
    · simp [normalize_audio, ha]
    · by_cases hl0 : ls = []
      · simp [normalize_audio, ha, hls, hl0]
      · simp [normalize_audio, ha, hls, hl0, h0]
  · intro audio channels t ls hls hne hpk ht0 ht1
    exact normalize_peak_core audio channels t ls hls hne hpk ht0 ht1

/-- Witness for C5's main conjunct: a single positive sample 16384
normalized to `targetPeak = 1/2` (expected peak `⌊16383.5⌋ = 16383`). -/
theorem normalize_audio_peak_witness :
    bytesToSamples [0, 64] = some [16384]
    ∧ ([(16384 : Int)] ≠ [])
    ∧ maxAbs [16384] ≠ 0
    ∧ (0 : ℚ) < 1 / 2
    ∧ (1 : ℚ) / 2 ≤ 1
    ∧ (∃ out outS, normalize_audio [0, 64] 2 1 (1 / 2) = some out
        ∧ bytesToSamples out = some outS
        ∧ (maxAbs outS : Int) = ⌊(1 / 2 : ℚ) * 32767⌋
        ∧ ((maxAbs outS : Int) - round ((1 / 2 : ℚ) * 32767)).natAbs ≤ 1) :=
  ⟨by decide, by decide, by decide, by norm_num, by norm_num,
    normalize_audio_peak.2.2.2 [0, 64] 1 (1 / 2) [16384]
      (by decide) (by decide) (by decide) (by norm_num) (by norm_num)⟩

/-! ## Chunker lemmas: `str.split()` under separators, strip and join -/

theorem splitWs_nil : splitWs [] = [] := rfl

theorem splitWs_ws_cons {c : Char} (s : List Char) (h : isWs c = true) :
    splitWs (c :: s) = splitWs s := by
  simp [splitWs, splitWsCore, h, wsPush]

theorem splitWsCore_append {r : List Char} {G : List (List Char)}
    (a : List Char) (h : splitWsCore r = ([], G)) :
    splitWsCore (a ++ r) = ((splitWsCore a).1, (splitWsCore a).2 ++ G) := by
  induction a with
  | nil => simp [splitWsCore, h]
  | cons c t ih =>
    rcases hw : splitWsCore t with ⟨w, gs⟩
    rw [hw] at ih
    have ih2 : splitWsCore (t ++ r) = (w, gs ++ G) := by simpa using ih
    simp only [List.cons_append, splitWsCore, List.append_eq, ih2, hw]
    by_cases hc : isWs c = true
    · simp only [hc, if_true]
      by_cases hw0 : w = []
      · simp [hw0]
      · simp [hw0]
    · simp [hc]

theorem splitWs_append_ws {sep : Char} (a b : List Char) (h : isWs sep = true) :
    splitWs (a ++ sep :: b) = splitWs a ++ splitWs b := by
  have hsep : splitWsCore (sep :: b) = ([], splitWs b) := by
    rcases hw : splitWsCore b with ⟨w, gs⟩
    by_cases hw0 : w = [] <;>
      simp [splitWsCore, hw, h, splitWs, wsPush, hw0]
  rw [splitWs, splitWsCore_append a hsep]
  by_cases hw0 : (splitWsCore a).1 = [] <;> simp [splitWs, wsPush, hw0]

theorem splitWs_dropWhile (s : List Char) :
    splitWs (s.dropWhile isWs) = splitWs s := by
  induction s with
  | nil => rfl
  | cons c t ih =>
    by_cases hc : isWs c = true
    · rw [List.dropWhile_cons_of_pos hc, ih, splitWs_ws_cons t hc]
    · rw [List.dropWhile_cons_of_neg (by simp_all)]

theorem splitWsCore_cons_congr (c : Char) {u v : List Char}
    (huv : splitWsCore u = splitWsCore v) :
    splitWsCore (c :: u) = splitWsCore (c :: v) := by
  simp only [splitWsCore, huv]

theorem splitWsCore_dropTrailing (s : List Char) :
    splitWsCore (dropTrailingWs s) = splitWsCore s := by
  induction s with
  | nil => rfl
  | cons c t ih =>
    simp only [dropTrailingWs]
    cases hr : dropTrailingWs t with
    | nil =>
      rw [hr] at ih
      by_cases hc : isWs c = true
      · rw [if_pos hc]
        show splitWsCore [] = splitWsCore (c :: t)
        simp [splitWsCore, ← ih, hc, wsPush]
      · rw [if_neg hc]
        show splitWsCore [c] = splitWsCore (c :: t)
        simp [splitWsCore, ← ih, hc]
    | cons x xs =>
      show splitWsCore (c :: x :: xs) = splitWsCore (c :: t)
      rw [← hr]
      exact splitWsCore_cons_congr c ih

theorem splitWs_strip (s : List Char) :
    splitWs (stripChars s) = splitWs s := by
  rw [stripChars, splitWs, splitWsCore_dropTrailing, ← splitWs, splitWs_dropWhile]

theorem splitWs_mem : ∀ {s w : List Char}, w ∈ splitWs s →
    w ≠ [] ∧ ∀ c ∈ w, isWs c = false := by
  have core : ∀ s : List Char,
      (∀ c ∈ (splitWsCore s).1, isWs c = false)
      ∧ ∀ g ∈ (splitWsCore s).2, g ≠ [] ∧ ∀ c ∈ g, isWs c = false := by
    intro s
    induction s with
    | nil => simp [splitWsCore]
    | cons c t ih =>
      rcases hw : splitWsCore t with ⟨w, gs⟩
      rw [hw] at ih
      simp only at ih
      by_cases hc : isWs c = true
      · refine ⟨by simp [splitWsCore, hc, hw], ?_⟩
        simp only [splitWsCore, hc, if_true, hw]
        by_cases h1 : w = []
        · simp only [h1, if_pos]
          exact ih.2
        · simp only [if_neg h1]
          intro g hg
          rcases List.mem_cons.mp hg with rfl | hg2
          · exact ⟨h1, ih.1⟩
          · exact ih.2 g hg2
      · have hc2 : isWs c = false := by simp_all
        constructor
        · intro x hx
          simp only [splitWsCore, hc2, Bool.false_eq_true, if_false, hw] at hx
          rcases List.mem_cons.mp hx with rfl | hx2
          · exact hc2
          · exact ih.1 x hx2
        · intro g hg
          simp only [splitWsCore, hc2, Bool.false_eq_true, if_false, hw] at hg
          exact ih.2 g hg
  intro s w hw
  rw [splitWs, wsPush] at hw
  split at hw
  · exact (core s).2 w hw
  · rcases List.mem_cons.mp hw with rfl | hw2
    · exact ⟨by assumption, (core s).1⟩
    · exact (core s).2 w hw2

theorem splitWs_single {w : List Char} (hne : w ≠ [])
    (hnws : ∀ c ∈ w, isWs c = false) : splitWs w = [w] := by
  have core : ∀ w : List Char, (∀ c ∈ w, isWs c = false) →
      splitWsCore w = (w, []) := by
    intro w h
    induction w with
    | nil => rfl
    | cons c t ih =>
      have hc := h c (by simp)
      simp only [splitWsCore, ih (fun x hx => h x (by simp [hx])), hc,
        Bool.false_eq_true, if_false]
  rw [splitWs, core w hnws]
  simp [wsPush, hne]

theorem splitWs_join : ∀ l : List (List Char),
    splitWs (joinSpace l) = wordsJoin l := by
  intro l
  induction l with
  | nil => rfl
  | cons x xs ih =>
    cases xs with
    | nil => simp [joinSpace, wordsJoin, splitWs_nil]
    | cons y ys =>
      show splitWs (x ++ ' ' :: joinSpace (y :: ys)) = _
      rw [splitWs_append_ws _ _ (by decide), ih]
      simp [wordsJoin]


theorem wordsJoin_nil : wordsJoin [] = [] := rfl

theorem wordsJoin_cons (x : List Char) (l : List (List Char)) :
    wordsJoin (x :: l) = splitWs x ++ wordsJoin l := by
  simp [wordsJoin]

theorem wordsJoin_append (a b : List (List Char)) :
    wordsJoin (a ++ b) = wordsJoin a ++ wordsJoin b := by
  simp [wordsJoin]

theorem sentGo_words : ∀ (s : List Char) (skip : Bool) (acc : List Char),
    (skip = true → acc = []) →
    wordsJoin (sentGo s skip acc) = splitWs (acc.reverse ++ s) := by
  intro s
  induction s with
  | nil =>
    intro skip acc _
    simp [sentGo, wordsJoin]
  | cons c rest ih =>
    intro skip acc hacc
    cases skip with
    | true =>
      rw [hacc rfl]
      by_cases hc : isWs c = true
      · have h1 : sentGo (c :: rest) true [] = sentGo rest true [] := by
          simp [sentGo, hc]
        rw [h1, ih true [] (fun _ => rfl)]
        simp only [List.reverse_nil, List.nil_append]
        exact (splitWs_ws_cons rest hc).symm
      · have h1 : sentGo (c :: rest) true [] = sentGo rest false [c] := by
          simp [sentGo, hc]
        rw [h1, ih false [c] (fun h => by cases h)]
        simp
    | false =>
      by_cases hcond : (isWs c && headIsSentEnd acc) = true
      · have h1 : sentGo (c :: rest) false acc
            = acc.reverse :: sentGo rest true [] := by
          simp [sentGo, hcond]
        rw [h1, wordsJoin_cons, ih true [] (fun _ => rfl)]
        simp only [List.reverse_nil, List.nil_append]
        have hc : isWs c = true := (Bool.and_eq_true_iff.mp hcond).1
        exact (splitWs_append_ws acc.reverse rest hc).symm
      · have h1 : sentGo (c :: rest) false acc
            = sentGo rest false (c :: acc) := by
          simp only [sentGo, hcond, Bool.false_eq_true, if_false]
        rw [h1, ih false (c :: acc) (fun h => by cases h)]
        simp

theorem filter_strip_words (parts : List (List Char)) :
    wordsJoin ((parts.map stripChars).filter (fun p => !p.isEmpty))
      = wordsJoin parts := by
  induction parts with
  | nil => rfl
  | cons p ps ih =>
    simp only [List.map_cons, List.filter_cons]
    by_cases h : stripChars p = []
    · have h2 : (!(stripChars p).isEmpty) = false := by simp [h]
      rw [h2]
      have h3 : splitWs p = [] := by
        rw [← splitWs_strip, h, splitWs_nil]
      simp only [Bool.false_eq_true, if_false, wordsJoin_cons, h3, List.nil_append]
      exact ih
    · have h2 : (!(stripChars p).isEmpty) = true := by
        simp [List.isEmpty_iff, h]
      rw [h2]
      simp only [if_true, wordsJoin_cons, ih, splitWs_strip]

theorem splitSentences_words (t : List Char) :
    wordsJoin (splitSentences t) = splitWs t := by
  rw [splitSentences, filter_strip_words,
    sentGo_words (stripChars t) false [] (fun h => by cases h)]
  simp [splitWs_strip]


theorem dropTrailingWs_length_le (s : List Char) :
    (dropTrailingWs s).length ≤ s.length := by
  induction s with
  | nil => simp [dropTrailingWs]
  | cons c t ih =>
    simp only [dropTrailingWs]
    cases hr : dropTrailingWs t with
    | nil =>
      by_cases hc : isWs c = true <;> simp [hc]
    | cons x xs =>
      rw [hr] at ih
      simpa using Nat.succ_le_succ ih

theorem mem_dropTrailingWs {s : List Char} {c : Char}
    (h : c ∈ dropTrailingWs s) : c ∈ s := by
  induction s with
  | nil => simp [dropTrailingWs] at h
  | cons x t ih =>
    simp only [dropTrailingWs] at h
    cases hr : dropTrailingWs t with
    | nil =>
      rw [hr] at h
      by_cases hx : isWs x = true
      · rw [if_pos hx] at h
        simp at h
      · rw [if_neg hx] at h
        simp at h
        simp [h]
    | cons y ys =>
      rw [hr] at h
      rcases List.mem_cons.mp h with rfl | h2
      · simp
      · rw [← hr] at h2
        exact List.mem_cons_of_mem x (ih h2)

theorem strip_length_le (s : List Char) :
    (stripChars s).length ≤ s.length :=
  le_trans (dropTrailingWs_length_le _)
    (List.dropWhile_suffix isWs).sublist.length_le

theorem mem_strip {s : List Char} {c : Char} (h : c ∈ stripChars s) : c ∈ s :=
  (List.dropWhile_suffix isWs).sublist.subset (mem_dropTrailingWs h)

theorem dropWhile_ws_head : ∀ {y : List Char} {c : Char} {t : List Char},
    y.dropWhile isWs = c :: t → isWs c = false := by
  intro y
  induction y with
  | nil => intro c t h; simp at h
  | cons x r ih =>
    intro c t h
    by_cases hx : isWs x = true
    · rw [List.dropWhile_cons_of_pos hx] at h
      exact ih h
    · rw [List.dropWhile_cons_of_neg (by simp_all)] at h
      cases h
      simp_all

theorem strip_ne_nonws {y : List Char} (h : stripChars y ≠ []) :
    ∃ ch ∈ stripChars y, isWs ch = false := by
  unfold stripChars at h ⊢
  cases hd : y.dropWhile isWs with
  | nil => rw [hd] at h; exact absurd rfl h
  | cons c t =>
    have hc : isWs c = false := dropWhile_ws_head hd
    simp only [dropTrailingWs] at h ⊢
    cases hr : dropTrailingWs t with
    | nil =>
      rw [if_neg (by simp [hc])]
      exact ⟨c, by simp, hc⟩
    | cons x xs => exact ⟨c, by simp, hc⟩

theorem dropTrailingWs_ne {b : List Char}
    (h : ∃ c ∈ b, isWs c = false) : dropTrailingWs b ≠ [] := by
  induction b with
  | nil => simp at h
  | cons x t ih =>
    obtain ⟨c, hc, hcw⟩ := h
    simp only [dropTrailingWs]
    cases hr : dropTrailingWs t with
    | nil =>
      rcases List.mem_cons.mp hc with rfl | hct
      · simp [hcw]
      · exact absurd hr (ih ⟨c, hct, hcw⟩)
    | cons y ys => simp

theorem dropWhile_append_nonws {p : List Char} (q : List Char)
    (h : ∃ c ∈ p, isWs c = false) :
    (p ++ q).dropWhile isWs = p.dropWhile isWs ++ q := by
  induction p with
  | nil => simp at h
  | cons x t ih =>
    obtain ⟨c, hc, hcw⟩ := h
    by_cases hx : isWs x = true
    · have hct : c ∈ t := by
        rcases List.mem_cons.mp hc with rfl | hct
        · rw [hx] at hcw; cases hcw
        · exact hct
      rw [List.cons_append, List.dropWhile_cons_of_pos hx,
        List.dropWhile_cons_of_pos hx, ih ⟨c, hct, hcw⟩]
    · rw [List.cons_append, List.dropWhile_cons_of_neg (by simp_all),
        List.dropWhile_cons_of_neg (by simp_all), List.cons_append]

theorem dropTrailing_append_nonws (a : List Char) {b : List Char}
    (h : ∃ c ∈ b, isWs c = false) :
    dropTrailingWs (a ++ b) = a ++ dropTrailingWs b := by
  induction a with
  | nil => simp
  | cons x t ih =>
    simp only [List.cons_append]
    simp only [dropTrailingWs]
    rw [ih]
    cases hr : t ++ dropTrailingWs b with
    | nil =>
      exact absurd (List.append_eq_nil.mp hr).2 (dropTrailingWs_ne h)
    | cons y ys => rfl

theorem strip_append_mid {p l : List Char} (m : Char)
    (hp : ∃ c ∈ p, isWs c = false) (hl : ∃ c ∈ l, isWs c = false) :
    stripChars (p ++ m :: l) = p.dropWhile isWs ++ m :: dropTrailingWs l := by
  rw [stripChars, dropWhile_append_nonws (m :: l) hp]
  have h2 : p.dropWhile isWs ++ m :: l = (p.dropWhile isWs ++ [m]) ++ l := by
    simp
  rw [h2, dropTrailing_append_nonws _ hl]
  simp

theorem joinSpace_length : ∀ (x : List Char) (xs : List (List Char)),
    (joinSpace (x :: xs)).length + 1 = sumLen1 (x :: xs) := by
  intro x xs
  induction xs generalizing x with
  | nil => simp [joinSpace, sumLen1]
  | cons y ys ih =>
    show (x ++ ' ' :: joinSpace (y :: ys)).length + 1 = _
    have := ih y
    simp only [List.length_append, List.length_cons, sumLen1, List.map_cons,
      List.sum_cons] at this ⊢
    omega

theorem sumLen1_append (l : List (List Char)) (e : List Char) :
    sumLen1 (l ++ [e]) = sumLen1 l + (e.length + 1) := by
  simp [sumLen1]


theorem flushCurrent_spec (st : ChunkState) :
    (flushCurrent st).current = [] ∧ (flushCurrent st).currentChars = 0
    ∧ (flushCurrent st).currentWords = 0 := by
  simp only [flushCurrent]
  split_ifs <;> exact ⟨rfl, rfl, rfl⟩

theorem stInv_init (mc mw : Nat) : stInv mc mw ⟨[], [], 0, 0⟩ :=
  ⟨rfl, Or.inl rfl, by simp⟩

theorem flush_inv {mc mw : Nat} {st : ChunkState} (h : stInv mc mw st) :
    stInv mc mw (flushCurrent st) := by
  simp only [flushCurrent]
  by_cases h1 : st.current = []
  · rw [if_pos h1]
    exact ⟨rfl, Or.inl rfl, h.2.2⟩
  · rw [if_neg h1]
    by_cases h2 : stripChars (joinSpace st.current) = []
    · rw [if_pos h2]
      exact ⟨rfl, Or.inl rfl, h.2.2⟩
    · rw [if_neg h2]
      refine ⟨rfl, Or.inl rfl, ?_⟩
      intro c hc
      rcases List.mem_append.mp hc with hold | hnew
      · exact h.2.2 c hold
      · have hcend : c = stripChars (joinSpace st.current) := by simpa using hnew
        subst hcend
        refine ⟨?_, strip_ne_nonws h2⟩
        rcases h.2.1 with hnil | hle | ⟨e, hcur, hok⟩
        · exact absurd hnil h1
        · left
          obtain ⟨x, xs, hxs⟩ := List.exists_cons_of_ne_nil h1
          have hjl := joinSpace_length x xs
          rw [← hxs] at hjl
          have hsl := strip_length_le (joinSpace st.current)
          have h01 := h.1
          omega
        · rw [hcur]
          have hj : joinSpace [e] = e := rfl
          rw [hj]
          rcases hok with hnws | hwc
          · exact Or.inr (Or.inl (fun c hc => hnws c (mem_strip hc)))
          · exact Or.inr (Or.inr (by rw [splitWs_strip]; exact hwc))

theorem append_inv {mc mw : Nat} (st1 : ChunkState) (e : List Char) (nw : Nat)
    (h : stInv mc mw st1)
    (hc : st1.currentChars + (e.length + 1) ≤ mc
      ∨ (st1.current = [] ∧ elemOK mw e)) :
    stInv mc mw
      ⟨st1.chunks, st1.current ++ [e], st1.currentChars + (e.length + 1), nw⟩ := by
  refine ⟨?_, ?_, h.2.2⟩
  · show st1.currentChars + (e.length + 1) = sumLen1 (st1.current ++ [e])
    rw [sumLen1_append, ← h.1]
  · rcases hc with hle | ⟨hnil, hok⟩
    · exact Or.inr (Or.inl hle)
    · exact Or.inr (Or.inr ⟨e, by simp [hnil], hok⟩)

theorem processWord_inv {mc mw : Nat} {st : ChunkState} (h : stInv mc mw st)
    {w : List Char} (hw : w ≠ []) (hnws : ∀ c ∈ w, isWs c = false) :
    stInv mc mw (processWord mc mw st w) := by
  simp only [processWord]
  by_cases hcond : mw < st.currentWords + 1 ∨ mc < st.currentChars + w.length + 1
  · rw [if_pos (by simp only [Bool.or_eq_true, decide_eq_true_eq]; exact hcond)]
    exact append_inv _ w _ (flush_inv h)
      (Or.inr ⟨(flushCurrent_spec st).1, Or.inl hnws⟩)
  · rw [if_neg (by simp only [Bool.or_eq_true, decide_eq_true_eq]; exact hcond)]
    push_neg at hcond
    exact append_inv _ w _ h (Or.inl (by omega))

theorem wordLoop_inv {mc mw : Nat} : ∀ (ws : List (List Char)) (st : ChunkState),
    (∀ w ∈ ws, w ≠ [] ∧ ∀ c ∈ w, isWs c = false) → stInv mc mw st →
    stInv mc mw (ws.foldl (processWord mc mw) st) := by
  intro ws
  induction ws with
  | nil => exact fun st _ h => h
  | cons w rest ih =>
    intro st hws h
    rw [List.foldl_cons]
    exact ih _ (fun x hx => hws x (by simp [hx]))
      (processWord_inv h (hws w (by simp)).1 (hws w (by simp)).2)

theorem processSentence_inv {mc mw : Nat} {st : ChunkState} (h : stInv mc mw st)
    (s : List Char) : stInv mc mw (processSentence mc mw st s) := by
  simp only [processSentence]
  by_cases hwc : mw < (splitWs s).length
  · rw [if_pos hwc]
    exact wordLoop_inv _ _ (fun w hw => splitWs_mem hw) h
  · rw [if_neg hwc]
    by_cases hcond : mw < st.currentWords + (splitWs s).length
        ∨ mc < st.currentChars + s.length + 1
    · rw [if_pos (by simp only [Bool.or_eq_true, decide_eq_true_eq]; exact hcond)]
      exact append_inv _ s _ (flush_inv h)
        (Or.inr ⟨(flushCurrent_spec st).1, Or.inr (Nat.le_of_not_lt hwc)⟩)
    · rw [if_neg (by simp only [Bool.or_eq_true, decide_eq_true_eq]; exact hcond)]
      push_neg at hcond
      exact append_inv _ s _ h (Or.inl (by omega))

theorem sentLoop_inv {mc mw : Nat} : ∀ (sents : List (List Char))
    (st : ChunkState), stInv mc mw st →
    stInv mc mw (sents.foldl (processSentence mc mw) st) := by
  intro sents
  induction sents with
  | nil => exact fun st h => h
  | cons s rest ih =>
    intro st h
    rw [List.foldl_cons]
    exact ih _ (processSentence_inv h s)

theorem flush_words (st : ChunkState) :
    stWords (flushCurrent st) = stWords st := by
  simp only [flushCurrent, stWords]
  by_cases h1 : st.current = []
  · rw [if_pos h1, h1]
  · rw [if_neg h1]
    by_cases h2 : stripChars (joinSpace st.current) = []
    · rw [if_pos h2]
      have hcw : wordsJoin st.current = [] := by
        rw [← splitWs_join, ← splitWs_strip, h2, splitWs_nil]
      simp [hcw, wordsJoin_nil]
    · rw [if_neg h2]
      have hcw : splitWs (stripChars (joinSpace st.current))
          = wordsJoin st.current := by
        rw [splitWs_strip, splitWs_join]
      simp [wordsJoin_append, wordsJoin_cons, hcw, wordsJoin_nil]

theorem flush_chunks_words (st : ChunkState) :
    wordsJoin (flushCurrent st).chunks = stWords st := by
  have h1 := flush_words st
  rw [stWords, (flushCurrent_spec st).1] at h1
  simpa [wordsJoin_nil] using h1

theorem processWord_words {mc mw : Nat} (st : ChunkState)
    {w : List Char} (hw : w ≠ []) (hnws : ∀ c ∈ w, isWs c = false) :
    stWords (processWord mc mw st w) = stWords st ++ [w] := by
  simp only [processWord]
  have key : ∀ st1 : ChunkState,
      stWords ⟨st1.chunks, st1.current ++ [w], st1.currentChars + (w.length + 1),
        st1.currentWords + 1⟩ = stWords st1 ++ [w] := by
    intro st1
    rw [stWords, stWords, wordsJoin_append, wordsJoin_cons, wordsJoin_nil,
      splitWs_single hw hnws]
    simp
  split
  · rw [key (flushCurrent st), flush_words]
  · exact key st

theorem wordLoop_words {mc mw : Nat} : ∀ (ws : List (List Char))
    (st : ChunkState), (∀ w ∈ ws, w ≠ [] ∧ ∀ c ∈ w, isWs c = false) →
    stWords (ws.foldl (processWord mc mw) st) = stWords st ++ ws := by
  intro ws
  induction ws with
  | nil => intro st _; simp
  | cons w rest ih =>
    intro st hws
    rw [List.foldl_cons, ih _ (fun x hx => hws x (by simp [hx])),
      processWord_words st (hws w (by simp)).1 (hws w (by simp)).2]
    simp

theorem processSentence_words {mc mw : Nat} (st : ChunkState) (s : List Char) :
    stWords (processSentence mc mw st s) = stWords st ++ splitWs s := by
  simp only [processSentence]
  by_cases hwc : mw < (splitWs s).length
  · rw [if_pos hwc]
    exact wordLoop_words _ _ (fun w hw => splitWs_mem hw)
  · rw [if_neg hwc]
    have key : ∀ st1 : ChunkState,
        stWords ⟨st1.chunks, st1.current ++ [s], st1.currentChars + (s.length + 1),
          st1.currentWords + (splitWs s).length⟩ = stWords st1 ++ splitWs s := by
      intro st1
      rw [stWords, stWords, wordsJoin_append, wordsJoin_cons, wordsJoin_nil]
      simp
    split
    · rw [key (flushCurrent st), flush_words]
    · exact key st

theorem sentLoop_words {mc mw : Nat} : ∀ (sents : List (List Char))
    (st : ChunkState),
    stWords (sents.foldl (processSentence mc mw) st)
      = stWords st ++ wordsJoin sents := by
  intro sents
  induction sents with
  | nil => intro st; simp [wordsJoin_nil]
  | cons s rest ih =>
    intro st
    rw [List.foldl_cons, ih, processSentence_words, wordsJoin_cons]
    simp


theorem mergeTiny_words (minc : Nat) (cs : List (List Char)) :
    wordsJoin (mergeTiny minc cs) = wordsJoin cs := by
  unfold mergeTiny
  rcases hrev : cs.reverse with _ | ⟨last, rest1⟩
  · rfl
  · rcases rest1 with _ | ⟨prev, restRev⟩
    · rfl
    · dsimp only
      by_cases hlen : last.length < minc
      · rw [if_pos hlen]
        have hcs : cs = restRev.reverse ++ [prev, last] := by
          have h0 : cs = cs.reverse.reverse := (List.reverse_reverse cs).symm
          rw [h0, hrev]
          simp
        rw [hcs, wordsJoin_append, wordsJoin_append, wordsJoin_cons,
          wordsJoin_cons, wordsJoin_cons, wordsJoin_nil, splitWs_strip,
          splitWs_append_ws prev last (by decide)]
        simp
      · rw [if_neg hlen]

theorem mergeTiny_mem {mc mw minc : Nat} {cs : List (List Char)}
    (hcs : ∀ x ∈ cs, chunkBound mc mw x ∧ ∃ ch ∈ x, isWs ch = false) :
    ∀ c ∈ mergeTiny minc cs,
      (chunkBound mc mw c ∧ ∃ ch ∈ c, isWs ch = false)
      ∨ ∃ a b, c = a ++ ' ' :: b ∧ chunkBound mc mw a ∧ b.length < minc := by
  intro c hc
  unfold mergeTiny at hc
  rcases hrev : cs.reverse with _ | ⟨last, rest1⟩
  · rw [hrev] at hc
    exact Or.inl (hcs c hc)
  · rcases rest1 with _ | ⟨prev, restRev⟩
    · rw [hrev] at hc
      exact Or.inl (hcs c hc)
    · rw [hrev] at hc
      dsimp only at hc
      by_cases hlen : last.length < minc
      · rw [if_pos hlen] at hc
        have hcseq : cs = restRev.reverse ++ [prev, last] := by
          have h0 : cs = cs.reverse.reverse := (List.reverse_reverse cs).symm
          rw [h0, hrev]
          simp
        rcases List.mem_append.mp hc with hinit | hmerged
        · exact Or.inl (hcs c (by rw [hcseq]; exact List.mem_append_left _ hinit))
        · have hceq : c = stripChars (prev ++ ' ' :: last) := by simpa using hmerged
          have hprev := hcs prev (by rw [hcseq]; simp)
          have hlast := hcs last (by rw [hcseq]; simp)
          right
          refine ⟨prev.dropWhile isWs, dropTrailingWs last, ?_, ?_, ?_⟩
          · rw [hceq, strip_append_mid ' ' hprev.2 hlast.2]
          · rcases hprev.1 with hl | hnws | hwc
            · exact Or.inl (le_trans (List.dropWhile_suffix isWs).sublist.length_le hl)
            · exact Or.inr (Or.inl (fun x hx =>
                hnws x ((List.dropWhile_suffix isWs).sublist.subset hx)))
            · exact Or.inr (Or.inr (by rw [splitWs_dropWhile]; exact hwc))
          · exact lt_of_le_of_lt (dropTrailingWs_length_le last) hlen
      · rw [if_neg hlen] at hc
        exact Or.inl (hcs c hc)

/-- C1, amended: every chunk produced by `chunk_text` is within `max_chars`,
or is a single whitespace-free word, or is a whole unit (sentence, or the
whole text) whose word count fits `max_words`; in addition, the final chunk
may be such a chunk joined by a space with a sub-`min_chars` tail merged
into it by the `min_chars` post-pass. -/
theorem chunk_text_size (text : List Char) (mc mw minc : Nat) (pres : Bool) :
    ∀ c ∈ chunkText text mc mw minc pres,
      chunkBound mc mw c
      ∨ ∃ a b, c = a ++ ' ' :: b ∧ chunkBound mc mw a ∧ b.length < minc := by
  intro c hc
  simp only [chunkText] at hc
  by_cases hcl : stripChars text = []
  · rw [if_pos hcl] at hc
    simp at hc
  · rw [if_neg hcl] at hc
    have hfl := flush_inv (sentLoop_inv
      (if pres then splitSentences (stripChars text) else [stripChars text])
      ⟨[], [], 0, 0⟩ (stInv_init mc mw))
    rcases mergeTiny_mem hfl.2.2 c hc with ⟨hb, _⟩ | hdec
    · exact Or.inl hb
    · exact Or.inr hdec

/-- C9: joining the chunks of `chunk_text` reconstructs exactly the input's
whitespace-separated words in order; no chunk is empty; an empty or
whitespace-only input yields no chunks. -/
theorem chunk_text_words (text : List Char) (mc mw minc : Nat) (pres : Bool) :
    splitWs (joinSpace (chunkText text mc mw minc pres)) = splitWs text
    ∧ (∀ c ∈ chunkText text mc mw minc pres, c ≠ [])
    ∧ (stripChars text = [] → chunkText text mc mw minc pres = []) := by
  by_cases hcl : stripChars text = []
  · have he : chunkText text mc mw minc pres = [] := by
      simp [chunkText, hcl]
    refine ⟨?_, by simp [he], fun _ => he⟩
    rw [he, ← splitWs_strip text, hcl]
    rfl
  · have hsentw : wordsJoin (if pres then splitSentences (stripChars text)
        else [stripChars text]) = splitWs text := by
      cases pres with
      | true =>
        rw [if_pos rfl, splitSentences_words, splitWs_strip]
      | false =>
        rw [if_neg (by simp), wordsJoin_cons, wordsJoin_nil, splitWs_strip]
        simp
    refine ⟨?_, ?_, fun h => absurd h hcl⟩
    · rw [splitWs_join]
      simp only [chunkText, if_neg hcl]
      rw [mergeTiny_words, flush_chunks_words, sentLoop_words]
      rw [show stWords ⟨[], [], 0, 0⟩ = [] from rfl]
      rw [List.nil_append, hsentw]
    · intro c hc
      simp only [chunkText, if_neg hcl] at hc
      have hfl := flush_inv (sentLoop_inv
        (if pres then splitSentences (stripChars text) else [stripChars text])
        ⟨[], [], 0, 0⟩ (stInv_init mc mw))
      rcases mergeTiny_mem hfl.2.2 c hc with ⟨_, ch, hch, _⟩ | ⟨a, b, rfl, _, _⟩
      · exact List.ne_nil_of_mem hch
      · simp


/-- C1, counterexample: the spec's own example,
`chunk_text("Hello world. This is a test sentence that is reasonably long.",
max_chars=20, max_words=5)` (with the default `min_chars=40`), emits the
24-character multi-word chunk `"that is reasonably long."`, so not every
chunk is within `max_chars` or a single oversized word. -/
theorem chunk_text_size_counterexample :
    ¬ (∀ c ∈ chunkText
        (strL "Hello world. This is a test sentence that is reasonably long.")
        20 5 40 true,
        c.length ≤ 20 ∨ ∀ ch ∈ c, isWs ch = false)
    ∧ (chunkText
        (strL "Hello world. This is a test sentence that is reasonably long.")
        20 5 40 true).getLast?
      = some (strL "that is reasonably long.")
    ∧ (strL "that is reasonably long.").length = 24 := by
  refine ⟨?_, by decide, by decide⟩
  decide

/-- Witness for C1's amended theorem at a concrete input and chunk. -/
theorem chunk_text_size_witness :
    strL "Hi there." ∈ chunkText (strL "Hi there.") 20 5 1 true
    ∧ (chunkBound 20 5 (strL "Hi there.")
        ∨ ∃ a b, strL "Hi there." = a ++ ' ' :: b ∧ chunkBound 20 5 a
          ∧ b.length < 1) :=
  ⟨by decide,
    chunk_text_size (strL "Hi there.") 20 5 1 true (strL "Hi there.")
      (by decide)⟩

/-- Witness for C9 at concrete inputs: a chunk of a non-trivial text is
non-empty, and a whitespace-only text yields no chunks. -/
theorem chunk_text_words_witness :
    strL "Hi there." ∈ chunkText (strL "Hi there.") 20 5 1 true
    ∧ strL "Hi there." ≠ []
    ∧ stripChars (strL "  ") = []
    ∧ chunkText (strL "  ") 20 5 1 true = [] :=
  ⟨by decide,
    (chunk_text_words (strL "Hi there.") 20 5 1 true).2.1
      (strL "Hi there.") (by decide),
    by decide,
    (chunk_text_words (strL "  ") 20 5 1 true).2.2 (by decide)⟩

end PMV
